import Mathlib

/-!
Verification of the nRF5340 traffic-signal sequencer (`src/main.c`).

The development shallowly embeds the pure data-flow core of the program:
the UART ring buffer (`ring_buffer_put` / `ring_buffer_get`), the byte
ingestion task (`uart_receive_task` character checks and `D,1` / `D,0`
control-message handling), the dispatcher's message parser (the
`strchr`/`sscanf` loops of `dispatcher_task`) and the distribution of
parsed commands to the per-color FIFOs and the global `command_queue`
turn ledger.
-/

set_option maxRecDepth 10000

namespace TrafficSignals

/-- Capacity `MAX_MSG_LEN` from `main.c`: capacity of the ring buffer and of the
message accumulators. -/
def MAX_MSG_LEN : Nat := 256

/-- Model of `struct ring_buffer` from `main.c`: a fixed 256-byte circular buffer
with head (write cursor), tail (read cursor) and occupied count. -/
structure RingBuffer where
  buffer : List Char
  head : Nat
  tail : Nat
  count : Nat
deriving DecidableEq

/-- The statically zero-initialized `uart_buffer` (`.head = 0, .tail = 0,
.count = 0`, buffer contents zeroed). -/
def rb_init : RingBuffer :=
  ⟨List.replicate MAX_MSG_LEN (Char.ofNat 0), 0, 0, 0⟩

/-- One iteration of the `ring_buffer_put` loop body: store one symbol at
`head`, advance `head`, bump `count`; on overflow clamp `count` to
`MAX_MSG_LEN` and advance `tail` (dropping the oldest unread symbol). -/
def ring_buffer_put_char (rb : RingBuffer) (c : Char) : RingBuffer :=
  let rb1 : RingBuffer :=
    { rb with
      buffer := rb.buffer.set rb.head c
      head := (rb.head + 1) % MAX_MSG_LEN
      count := rb.count + 1 }
  if MAX_MSG_LEN < rb1.count then
    { rb1 with count := MAX_MSG_LEN, tail := (rb1.tail + 1) % MAX_MSG_LEN }
  else
    rb1

/-- Function `ring_buffer_put(rb, msg)`: stores every symbol of the NUL-terminated
message, one `ring_buffer_put_char` iteration per symbol. -/
def ring_buffer_put (rb : RingBuffer) (msg : List Char) : RingBuffer :=
  msg.foldl ring_buffer_put_char rb

/-- The `while (rb->count > 0 && i < MAX_MSG_LEN - 1)` loop of
`ring_buffer_get`, reading one symbol at `tail` per iteration.  The fuel
argument only bounds the iteration count; `ring_buffer_get` passes
`rb.count`, which is exact because every iteration requires `count > 0`
and decrements `count`. -/
def ring_buffer_get_loop : Nat → RingBuffer → Nat → List Char → RingBuffer × List Char
  | 0, rb, _, acc => (rb, acc)
  | fuel + 1, rb, i, acc =>
    if 0 < rb.count ∧ i < MAX_MSG_LEN - 1 then
      let c := rb.buffer.getD rb.tail (Char.ofNat 0)
      ring_buffer_get_loop fuel
        { rb with tail := (rb.tail + 1) % MAX_MSG_LEN, count := rb.count - 1 }
        (i + 1) (acc ++ [c])
    else
      (rb, acc)

/-- Function `ring_buffer_get(rb, msg)`: returns `-1` (modelled as `none`) on an
empty buffer, otherwise drains symbols into `msg` and returns the updated
buffer together with the extracted symbols. -/
def ring_buffer_get (rb : RingBuffer) : Option (RingBuffer × List Char) :=
  if rb.count = 0 then none
  else some (ring_buffer_get_loop rb.count rb 0 [])

/-! ## The dispatcher's message parser

`dispatcher_task` parses a message in two stages: `strchr(msg, 'T')`
splits off an optional repeat suffix read with `sscanf(t_ptr, "T,%d")`,
and the body is scanned entry by entry with `sscanf(ptr, "%c,%d%n")`,
skipping commas and spaces between entries. -/

/-- Value of a digit string read most-significant-first, as `sscanf`'s
`%d` accumulates it. -/
def digitsToNat (ds : List Char) : Nat :=
  ds.foldl (fun a c => a * 10 + (c.toNat - 48)) 0

/-- The whitespace class skipped by `sscanf`'s `%d`: C's `isspace` in
the default locale, i.e. space, horizontal tab, line feed, vertical tab
(`0x0B`), form feed (`0x0C`) and carriage return. -/
def c_isspace (c : Char) : Bool :=
  decide (c = ' ') || decide (c = '\t') || decide (c = '\n')
    || decide (c = '\x0B') || decide (c = '\x0C') || decide (c = '\r')

/-- The `%d` conversion of `sscanf`: skip leading `isspace` characters,
then an optional sign and at least one digit.  Returns the value and the
number of characters consumed (as `%n` would count them), or `none` on a
matching failure. -/
def scanInt (l : List Char) : Option (Int × Nat) :=
  match l.dropWhile c_isspace with
  | '-' :: r2 =>
    if r2.takeWhile Char.isDigit = [] then none
    else some (-(digitsToNat (r2.takeWhile Char.isDigit) : Int),
        (l.takeWhile c_isspace).length + 1 + (r2.takeWhile Char.isDigit).length)
  | '+' :: r2 =>
    if r2.takeWhile Char.isDigit = [] then none
    else some ((digitsToNat (r2.takeWhile Char.isDigit) : Int),
        (l.takeWhile c_isspace).length + 1 + (r2.takeWhile Char.isDigit).length)
  | r =>
    if r.takeWhile Char.isDigit = [] then none
    else some ((digitsToNat (r.takeWhile Char.isDigit) : Int),
        (l.takeWhile c_isspace).length + (r.takeWhile Char.isDigit).length)

/-- Model of `sscanf(ptr, "%c,%d%n", &color, &duration, &n)`: `%c` reads one
arbitrary character, the literal `,` must match the next character
exactly, then `%d` reads the duration.  Returns `(color, duration, n)`
on a full match (`sscanf` result `2`), `none` otherwise. -/
def scanEntry (l : List Char) : Option (Char × Int × Nat) :=
  match l with
  | c :: c2 :: rest =>
    if c2 = ',' then
      match scanInt rest with
      | none => none
      | some (v, used) => some (c, v, 2 + used)
    else none
  | _ => none

/-- One repeat pass of the dispatcher's body loop
(`while (*ptr != '\0') { sscanf(ptr, "%c,%d%n"); ...; ptr += n; skip
commas and spaces }`), with explicit fuel.  A failed `sscanf` breaks out
of the pass.  `parsePass` supplies fuel `l.length + 1`, which is exact
because every successful entry consumes at least one character. -/
def parsePassFuel : Nat → List Char → List (Char × Int)
  | 0, _ => []
  | fuel + 1, l =>
    match scanEntry l with
    | none => []
    | some (c, v, n) =>
      (c, v) :: parsePassFuel fuel ((l.drop n).dropWhile (fun x => x = ',' || x = ' '))

/-- One pass over a command sequence, producing the `(color, duration)`
entries in left-to-right order. -/
def parsePass (l : List Char) : List (Char × Int) :=
  parsePassFuel (l.length + 1) l

/-- Model of `sscanf(t_ptr, "T,%d", &repeat_times)` where `t_ptr` is the result
of `strchr(msg, 'T')`: literal `T` and `,` must match exactly, then `%d`
reads the repeat count. -/
def scanRepeat (tpart : List Char) : Option Int :=
  match tpart with
  | 'T' :: ',' :: rest => (scanInt rest).map Prod.fst
  | _ => none

/-- The whole parsing stage of `dispatcher_task` for one message: split
at the first `T` (if any), read the repeat count (defaulting to `1` when
`sscanf` fails), halt on the `assert(repeat_times >= 1 && repeat_times
<= 100)` (modelled as `none`), and otherwise expand the body
`repeat_times` times. -/
def parseMessage (msg : List Char) : Option (List (Char × Int)) :=
  match msg.findIdx? (fun c => c == 'T') with
  | some i =>
    let rep : Int := (scanRepeat (msg.drop i)).getD 1
    if 1 ≤ rep ∧ rep ≤ 100 then
      some (List.flatten (List.replicate rep.toNat (parsePass (msg.take i))))
    else
      none
  | none => some (parsePass msg)

/-! ## Command distribution

After parsing an entry, `dispatcher_task` switches on the color: `R`,
`G` and `Y` push the duration into the matching LED FIFO, the default
arm frees it.  Unconditionally it then appends a `command_item` with the
color to `command_queue` (the turn ledger) and increments
`command_count`, the number of `k_sem_take(&sequence_sem)` completion
waits executed afterwards. -/

/-- The three recognized channels. -/
inductive Channel where
  | red
  | green
  | yellow
deriving DecidableEq

/-- The `switch (color)` discrimination: which LED FIFO a color selects,
`none` for the default (drop) arm. -/
def channelOf (c : Char) : Option Channel :=
  if c = 'R' then some Channel.red
  else if c = 'G' then some Channel.green
  else if c = 'Y' then some Channel.yellow
  else none

/-- The dispatcher-visible queue state: the three LED FIFOs of pending
durations, the `command_queue` turn ledger of colors, and
`command_count`. -/
structure DispatchState where
  red_fifo : List Int
  green_fifo : List Int
  yellow_fifo : List Int
  command_queue : List Char
  command_count : Nat
deriving DecidableEq

/-- The empty dispatch state at the start of a message. -/
def dispatch_init : DispatchState := ⟨[], [], [], [], 0⟩

/-- The `switch (color)` statement: `R`, `G` and `Y` push the duration
into the matching LED FIFO; the default arm frees the allocation,
leaving every queue unchanged. -/
def pushColor (s : DispatchState) (p : Char × Int) : DispatchState :=
  if p.1 = 'R' then { s with red_fifo := s.red_fifo ++ [p.2] }
  else if p.1 = 'G' then { s with green_fifo := s.green_fifo ++ [p.2] }
  else if p.1 = 'Y' then { s with yellow_fifo := s.yellow_fifo ++ [p.2] }
  else s

/-- One iteration of the distribution loop body for a parsed
`(color, duration)` entry: the `switch` pushes the duration to the
matching FIFO (dropping it in the default arm), then the color is
unconditionally appended to `command_queue` and `command_count` is
incremented. -/
def submitCommand (s : DispatchState) (p : Char × Int) : DispatchState :=
  { pushColor s p with
    command_queue := (pushColor s p).command_queue ++ [p.1]
    command_count := (pushColor s p).command_count + 1 }

/-- Distribution of a whole parsed command list, in order. -/
def dispatchAll (cmds : List (Char × Int)) : DispatchState :=
  cmds.foldl submitCommand dispatch_init

/-- Number of completion signals the dispatcher blocks on after
distributing: the `for (int i = 0; i < command_count; i++)
k_sem_take(&sequence_sem, K_FOREVER)` loop. -/
def completions_waited (cmds : List (Char × Int)) : Nat :=
  (dispatchAll cmds).command_count

/-! ## The UART ingestion task

`uart_receive_task` asserts on forbidden bytes, echoes and accumulates
the rest, and on a terminator handles `D,1` / `D,0` control messages or
pushes the completed line into the ring buffer. -/

/-- The two `assert`s of `uart_receive_task` as a single predicate:
`true` iff the byte passes both `assert(!(rc >= 'a' && rc <= 'z'))` and
`assert(rc != '.' && rc != '!' && rc != '@' && rc != '#' && rc != '$' &&
rc != '%' && rc != '^' && rc != '&' && rc != '*')`. -/
def char_assert_ok (c : Char) : Bool :=
  !(decide ('a' ≤ c) && decide (c ≤ 'z'))
    && (c != '.' && c != '!' && c != '@' && c != '#' && c != '$'
        && c != '%' && c != '^' && c != '&' && c != '*')

/-- The ingestion-task state: the `uart_msg` line accumulator, the
`debug_enabled` flag and the `uart_buffer` ring buffer. -/
structure UartState where
  uart_msg : List Char
  debug_enabled : Bool
  uart_buffer : RingBuffer
deriving DecidableEq

/-- Handling of one completed line (the body of the terminator branch of
`uart_receive_task`): `strcmp` against `"D,1"` sets `debug_enabled`,
against `"D,0"` clears it; any other message is pushed whole into the
ring buffer. -/
def handle_message (s : UartState) (msg : List Char) : UartState :=
  if msg = ['D', ',', '1'] then { s with debug_enabled := true }
  else if msg = ['D', ',', '0'] then { s with debug_enabled := false }
  else { s with uart_buffer := ring_buffer_put s.uart_buffer msg }

/-- Processing of one received byte by `uart_receive_task`: a failed
assert halts the program (`none`); otherwise the byte is stored in
`uart_msg`, and if it is `'\n'`, `'\r'` or the accumulator is full, the
line (with the final stored byte overwritten by NUL, i.e. dropped) is
handled and the accumulator index reset. -/
def uart_receive_byte (s : UartState) (rc : Char) : Option UartState :=
  if char_assert_ok rc then
    let stored := s.uart_msg ++ [rc]
    if rc = '\n' ∨ rc = '\r' ∨ MAX_MSG_LEN ≤ stored.length then
      some (handle_message { s with uart_msg := [] } stored.dropLast)
    else
      some { s with uart_msg := stored }
  else
    none

/-- Feeding a byte sequence through the ingestion task, halting on the
first assertion failure. -/
def feed (s : UartState) (input : List Char) : Option UartState :=
  input.foldlM uart_receive_byte s

/-- The ingestion state at boot: empty accumulator, debugging off, empty
ring buffer. -/
def uart_init : UartState := ⟨[], false, rb_init⟩

/-! ## Ring-buffer operation sequences (for the capacity invariant) -/

/-- An abstract operation on the ring buffer: a producer `put` of one
message or a consumer read. -/
inductive RBOp where
  | put (msg : List Char)
  | read

/-- Applying one operation to the buffer (a failed read leaves it
unchanged). -/
def applyOp (rb : RingBuffer) : RBOp → RingBuffer
  | RBOp.put msg => ring_buffer_put rb msg
  | RBOp.read =>
    match ring_buffer_get rb with
    | none => rb
    | some (rb1, _) => rb1

/-- The buffer after the producer has pushed the two one-symbol messages
`A` and `B`. -/
def rbAB : RingBuffer := ring_buffer_put (ring_buffer_put rb_init ['A']) ['B']

/-- A buffer filled to capacity. -/
def rbFull : RingBuffer := { rb_init with count := MAX_MSG_LEN }

/-! ## Rendered command bodies

To state order-preservation of the parser over all well-formed bodies,
a body is rendered from a list of `(color, digit-string)` entries, each
entry printed as `color ',' digits ','`. -/

/-- Rendering of a command body in the input grammar, with a suffix
appended after the final separator. -/
def renderB (entries : List (Char × List Char)) (suffix : List Char) : List Char :=
  match entries with
  | [] => suffix
  | p :: rest => p.1 :: ',' :: (p.2 ++ ',' :: renderB rest suffix)

/-- Well-formedness of rendered entries: the color is not the repeat
marker nor a separator, and the duration is a nonempty digit string. -/
abbrev goodEntries (entries : List (Char × List Char)) : Prop :=
  ∀ p ∈ entries, (p.1 ≠ 'T' ∧ p.1 ≠ ',' ∧ p.1 ≠ ' ') ∧ p.2 ≠ [] ∧ ∀ c ∈ p.2, c.isDigit = true

/-! ## Model sanity checks on concrete inputs -/

example : (ring_buffer_put rb_init ['A', 'B']).count = 2 := by decide
example :
    (ring_buffer_get (ring_buffer_put rb_init ['A', 'B'])).map (fun p => p.2)
      = some ['A', 'B'] := by decide
example : ring_buffer_get rb_init = none := by decide

example :
    parseMessage (String.toList "R,100,G,200T,2")
      = some [('R', 100), ('G', 200), ('R', 100), ('G', 200)] := by decide
example : parseMessage (String.toList "R,100,ZZT,2") = some [('R', 100), ('R', 100)] := by
  decide
example : parseMessage (String.toList "Y,50") = some [('Y', 50)] := by decide
example : parseMessage (String.toList "R,10T,0") = none := by decide
example : parseMessage (String.toList "R,10T,101") = none := by decide
example : parseMessage (String.toList "R,10T,x") = some [('R', 10)] := by decide
example : parseMessage (String.toList "X,5") = some [('X', 5)] := by decide

example : scanInt (String.toList "\x0B\x0C 42,") = some (42, 5) := by decide
example : parseMessage (String.toList "R,10T,\x0B101") = none := by decide
example : parseMessage (String.toList "R,10T,\x0B99") ≠ none := by decide
example : parsePass (String.toList "R,\x0B5") = [('R', 5)] := by decide
example : parsePass (String.toList "R,\x0B5,G,6") = [('R', 5), ('G', 6)] := by decide

example :
    dispatchAll [('R', 100), ('G', 200), ('R', 100), ('G', 200)]
      = ⟨[100, 100], [200, 200], [], ['R', 'G', 'R', 'G'], 4⟩ := by decide
example : dispatchAll [('X', 5)] = ⟨[], [], [], ['X'], 1⟩ := by decide

example :
    feed uart_init (String.toList "D,1\n") = some ⟨[], true, rb_init⟩ := by decide
example : feed uart_init (String.toList "a") = none := by decide
example :
    (feed uart_init (String.toList "Y,50\n")).map (fun s => s.uart_buffer.count)
      = some 4 := by decide

example : renderB [('R', ['1', '0', '0']), ('G', ['2', '0'])] [] = String.toList "R,100,G,20," :=
  by decide

/-! ## Parser lemmas -/

lemma tw_dw_length (p : Char → Bool) (l : List Char) :
    (l.takeWhile p).length + (l.dropWhile p).length = l.length := by
  rw [← List.length_append, List.takeWhile_append_dropWhile]

lemma length_takeWhile_le (p : Char → Bool) (l : List Char) :
    (l.takeWhile p).length ≤ l.length := by
  have := tw_dw_length p l
  omega

/-- A successful `%d` scan consumes between one character and the whole
input. -/
lemma scanInt_bounds {l : List Char} {v : Int} {used : Nat}
    (h : scanInt l = some (v, used)) : 1 ≤ used ∧ used ≤ l.length := by
  have hlen := tw_dw_length c_isspace l
  unfold scanInt at h
  split at h
  next r2 heq =>
    have hr2 : (l.dropWhile c_isspace).length = r2.length + 1 := by
      rw [heq]; simp
    split at h
    · exact absurd h (by simp)
    next hne =>
      have hds : (r2.takeWhile Char.isDigit).length ≤ r2.length :=
        length_takeWhile_le _ _
      simp only [Option.some.injEq, Prod.mk.injEq] at h
      omega
  next r2 heq =>
    have hr2 : (l.dropWhile c_isspace).length = r2.length + 1 := by
      rw [heq]; simp
    split at h
    · exact absurd h (by simp)
    next hne =>
      have hds : (r2.takeWhile Char.isDigit).length ≤ r2.length :=
        length_takeWhile_le _ _
      simp only [Option.some.injEq, Prod.mk.injEq] at h
      omega
  next r hne1 hne2 =>
    split at h
    · exact absurd h (by simp)
    next hne =>
      have hds : ((l.dropWhile c_isspace).takeWhile Char.isDigit).length
          ≤ (l.dropWhile c_isspace).length :=
        length_takeWhile_le _ _
      have hpos : ((l.dropWhile c_isspace).takeWhile Char.isDigit).length ≠ 0 := by
        intro h0
        exact hne (List.eq_nil_of_length_eq_zero h0)
      have hd : (l.dropWhile c_isspace).length ≤ l.length := by omega
      simp only [Option.some.injEq, Prod.mk.injEq] at h
      omega

/-- A successful `"%c,%d%n"` scan consumes between three characters and
the whole input. -/
lemma scanEntry_bounds {l : List Char} {c : Char} {v : Int} {n : Nat}
    (h : scanEntry l = some (c, v, n)) : 3 ≤ n ∧ n ≤ l.length := by
  unfold scanEntry at h
  split at h
  next c0 c2 rest =>
    split at h
    · cases hsi : scanInt rest with
      | none => rw [hsi] at h; exact absurd h (by simp)
      | some p =>
        obtain ⟨v0, used⟩ := p
        rw [hsi] at h
        simp only [Option.some.injEq, Prod.mk.injEq] at h
        obtain ⟨hb1, hb2⟩ := scanInt_bounds hsi
        simp only [List.length_cons]
        omega
    · exact absurd h (by simp)
  next =>
    exact absurd h (by simp)

/-- The remainder handed to the next iteration of the body loop is
strictly shorter than the current input. -/
lemma parsePass_rest_lt {l : List Char} {c : Char} {v : Int} {n : Nat}
    (h : scanEntry l = some (c, v, n)) :
    ((l.drop n).dropWhile (fun x => x = ',' || x = ' ')).length < l.length := by
  obtain ⟨h3, hle⟩ := scanEntry_bounds h
  have hdw := tw_dw_length (fun x => x = ',' || x = ' ') (l.drop n)
  have hdrop : (l.drop n).length = l.length - n := List.length_drop n l
  omega

/-- Fuel irrelevance for the body loop: any fuel exceeding the input
length computes the same pass. -/
lemma parsePassFuel_congr :
    ∀ f1 f2 (l : List Char), l.length < f1 → l.length < f2 →
      parsePassFuel f1 l = parsePassFuel f2 l := by
  intro f1
  induction f1 with
  | zero => intro f2 l h1 h2; omega
  | succ f ih =>
    intro f2 l h1 h2
    cases f2 with
    | zero => omega
    | succ f2b =>
      simp only [parsePassFuel]
      cases hse : scanEntry l with
      | none => rfl
      | some t =>
        obtain ⟨c, v, n⟩ := t
        have hlt := parsePass_rest_lt hse
        dsimp only
        rw [ih f2b ((l.drop n).dropWhile (fun x => x = ',' || x = ' ')) (by omega) (by omega)]

/-- Unfolding `parsePass` one iteration on a successful entry scan: the
parsed command is emitted and the pass continues after the consumed
characters and any separating commas or spaces. -/
lemma parsePass_cons {l : List Char} {c : Char} {v : Int} {n : Nat}
    (h : scanEntry l = some (c, v, n)) :
    parsePass l = (c, v) :: parsePass ((l.drop n).dropWhile (fun x => x = ',' || x = ' ')) := by
  have hlt := parsePass_rest_lt h
  unfold parsePass
  conv =>
    lhs
    rw [parsePassFuel]
    rw [h]
  dsimp only
  rw [parsePassFuel_congr l.length
    (((l.drop n).dropWhile (fun x => x = ',' || x = ' ')).length + 1)
    ((l.drop n).dropWhile (fun x => x = ',' || x = ' ')) (by omega) (by omega)]

/-- A failed entry scan breaks out of the pass with no further
commands. -/
lemma parsePass_eq_nil {l : List Char} (h : scanEntry l = none) :
    parsePass l = [] := by
  unfold parsePass
  rw [parsePassFuel]
  rw [h]


lemma digit_ne {c : Char} (h : c.isDigit = true) :
    c ≠ ',' ∧ c ≠ ' ' ∧ c ≠ '-' ∧ c ≠ '+' ∧ c ≠ 'T' := by
  refine ⟨?_, ?_, ?_, ?_, ?_⟩ <;> (intro hc; subst hc; exact absurd h (by decide))

lemma digit_not_c_isspace {c : Char} (h : c.isDigit = true) :
    c_isspace c = false := by
  cases hw : c_isspace c with
  | false => rfl
  | true =>
    exfalso
    simp [c_isspace] at hw
    rcases hw with ((((h1 | h1) | h1) | h1) | h1) | h1 <;> subst h1 <;>
      exact absurd h (by decide)

/-- Applying `takeWhile isDigit` to a digit string followed by a comma stops
exactly at the comma. -/
lemma takeWhile_digits {ds rest : List Char} (h : ∀ c ∈ ds, c.isDigit = true) :
    (ds ++ ',' :: rest).takeWhile Char.isDigit = ds := by
  induction ds with
  | nil => simp [List.takeWhile_cons]
  | cons d tl ih =>
    have hd : d.isDigit = true := h d (by simp)
    simp only [List.cons_append, List.takeWhile_cons, hd, if_true]
    rw [ih (fun c hc => h c (by simp [hc]))]

/-- A digit-headed list has no leading whitespace to skip. -/
lemma dropWhile_ws_digit {d : Char} {l : List Char} (h : d.isDigit = true) :
    (d :: l).dropWhile c_isspace = d :: l ∧
      (d :: l).takeWhile c_isspace = [] := by
  constructor
  · rw [List.dropWhile_cons, digit_not_c_isspace h]
    simp
  · rw [List.takeWhile_cons, digit_not_c_isspace h]
    simp

/-- Running `%d` on a rendered digit string followed by a comma reads exactly
those digits. -/
lemma scanInt_digits {ds rest : List Char} (hne : ds ≠ [])
    (h : ∀ c ∈ ds, c.isDigit = true) :
    scanInt (ds ++ ',' :: rest) = some ((digitsToNat ds : Int), ds.length) := by
  obtain ⟨d, tl, rfl⟩ : ∃ d tl, ds = d :: tl := by
    cases ds with
    | nil => exact absurd rfl hne
    | cons d tl => exact ⟨d, tl, rfl⟩
  have hd : d.isDigit = true := h d (by simp)
  have hdw := @dropWhile_ws_digit d (tl ++ ',' :: rest) hd
  unfold scanInt
  rw [List.cons_append, hdw.1, hdw.2]
  have htw : ((d :: tl) ++ ',' :: rest).takeWhile Char.isDigit = d :: tl :=
    takeWhile_digits h
  rw [List.cons_append] at htw
  split
  next r2 heq =>
    exfalso
    rw [List.cons.injEq] at heq
    exact absurd heq.1 (digit_ne hd).2.2.1
  next r2 heq =>
    exfalso
    rw [List.cons.injEq] at heq
    exact absurd heq.1 (digit_ne hd).2.2.2.1
  next hne1 hne2 =>
    rw [htw]
    simp

/-- Running `"%c,%d%n"` on a rendered entry reads the color and exactly its
digit string. -/
lemma scanEntry_render {c : Char} {ds rest : List Char} (hne : ds ≠ [])
    (h : ∀ x ∈ ds, x.isDigit = true) :
    scanEntry (c :: ',' :: (ds ++ ',' :: rest))
      = some (c, (digitsToNat ds : Int), 2 + ds.length) := by
  have hred : scanEntry (c :: ',' :: (ds ++ ',' :: rest))
      = match scanInt (ds ++ ',' :: rest) with
        | none => none
        | some (v, used) => some (c, v, 2 + used) := by
    unfold scanEntry
    rfl
  rw [hred, scanInt_digits hne h]

/-- The body loop parses a rendered body entry by entry, in order, and
continues into the suffix. -/
lemma parsePass_renderB (entries : List (Char × List Char)) (suffix : List Char)
    (hg : goodEntries entries)
    (hs : ∀ x, suffix.head? = some x → x ≠ ',' ∧ x ≠ ' ') :
    parsePass (renderB entries suffix)
      = entries.map (fun p => (p.1, (digitsToNat p.2 : Int))) ++ parsePass suffix := by
  induction entries with
  | nil => simp [renderB]
  | cons p rest ih =>
    obtain ⟨c, ds⟩ := p
    have hp := hg (c, ds) (by simp)
    have hne : ds ≠ [] := hp.2.1
    have hdig : ∀ x ∈ ds, x.isDigit = true := hp.2.2
    have hstep := @scanEntry_render c ds (renderB rest suffix) hne hdig
    rw [renderB, parsePass_cons hstep]
    have hdrop : ((c :: ',' :: (ds ++ ',' :: renderB rest suffix)).drop (2 + ds.length))
        = ',' :: renderB rest suffix := by
      have : c :: ',' :: (ds ++ ',' :: renderB rest suffix)
          = (c :: ',' :: ds) ++ ',' :: renderB rest suffix := by simp
      rw [this]
      have hlen : (c :: ',' :: ds).length = 2 + ds.length := by
        simp only [List.length_cons]
        omega
      rw [← hlen, List.drop_left]
    rw [hdrop]
    have hskip : (',' :: renderB rest suffix).dropWhile (fun x => x = ',' || x = ' ')
        = renderB rest suffix := by
      rw [List.dropWhile_cons, if_pos (by decide)]
      cases rest with
      | nil =>
        rw [renderB]
        cases suffix with
        | nil => rfl
        | cons a tl =>
          have ha := hs a rfl
          rw [List.dropWhile_cons, if_neg (by simp [ha.1, ha.2])]
      | cons q qs =>
        have hq := hg q (by simp)
        rw [renderB, List.dropWhile_cons, if_neg (by simp [hq.1.2.1, hq.1.2.2])]
    rw [hskip]
    rw [ih (fun q hq => hg q (by simp [hq]))]
    simp

/-! ## `parseMessage` branch lemmas -/

/-- Lookup `strchr(msg, 'T')` fails on a `T`-free message (any start index). -/
lemma findIdx?_T_none :
    ∀ (l : List Char), 'T' ∉ l →
      ∀ i, List.findIdx? (fun c => c == 'T') l i = none := by
  intro l
  induction l with
  | nil => intro _ i; rfl
  | cons a tl ih =>
    intro h i
    have ha : (a == 'T') = false := by
      refine beq_eq_false_iff_ne.mpr ?_
      intro hc
      exact h (by simp [hc])
    rw [List.findIdx?_cons, ha]
    simp only [Bool.false_eq_true, if_false]
    exact ih (fun hm => h (List.mem_cons_of_mem _ hm)) (i + 1)

/-- Without a `T` marker the dispatcher uses the whole message as the
sequence and `repeat_times = 1`: the body is parsed exactly once. -/
lemma parseMessage_no_T {msg : List Char} (h : 'T' ∉ msg) :
    parseMessage msg = some (parsePass msg) := by
  unfold parseMessage
  rw [findIdx?_T_none msg h 0]

/-- An out-of-range repeat count trips
`assert(repeat_times >= 1 && repeat_times <= 100)`. -/
lemma parseMessage_T_out_of_range {msg : List Char} {i : Nat} {v : Int}
    (hT : msg.findIdx? (fun c => c == 'T') = some i)
    (hrep : scanRepeat (msg.drop i) = some v) (hout : v < 1 ∨ 100 < v) :
    parseMessage msg = none := by
  unfold parseMessage
  rw [hT]
  simp only [hrep, Option.getD_some]
  rw [if_neg (by omega)]

/-- A repeat suffix that `sscanf` cannot parse falls back to
`repeat_times = 1`, and the body before the `T` is parsed once. -/
lemma parseMessage_T_unparsable {msg : List Char} {i : Nat}
    (hT : msg.findIdx? (fun c => c == 'T') = some i)
    (hrep : scanRepeat (msg.drop i) = none) :
    parseMessage msg = some (parsePass (msg.take i)) := by
  unfold parseMessage
  rw [hT]
  simp [hrep]

/-- A rendered body contains no `T`. -/
lemma T_not_mem_renderB (entries : List (Char × List Char)) (hg : goodEntries entries) :
    'T' ∉ renderB entries [] := by
  induction entries with
  | nil => simp [renderB]
  | cons p rest ih =>
    have hp := hg p (by simp)
    rw [renderB]
    intro hmem
    simp only [List.mem_cons, List.mem_append] at hmem
    rcases hmem with h1 | h1 | h1
    · exact hp.1.1 h1.symm
    · exact (by decide : ('T' : Char) ≠ ',') h1
    rcases h1 with h1 | h1
    · have hd := hp.2.2 'T' h1
      exact absurd hd (by decide)
    rcases h1 with h1 | h1
    · exact (by decide : ('T' : Char) ≠ ',') h1
    · exact ih (fun q hq => hg q (by simp [hq])) h1

/-! ## Distribution lemmas -/

/-- The `switch` never touches the turn ledger or the completion
counter. -/
lemma pushColor_ledger (s : DispatchState) (p : Char × Int) :
    (pushColor s p).command_queue = s.command_queue ∧
      (pushColor s p).command_count = s.command_count := by
  unfold pushColor
  split_ifs
  all_goals simp

/-- The `switch` grows the three FIFOs by one element exactly when the
color is recognized. -/
lemma pushColor_fifos (s : DispatchState) (p : Char × Int) :
    (pushColor s p).red_fifo.length + (pushColor s p).green_fifo.length
        + (pushColor s p).yellow_fifo.length
      = s.red_fifo.length + s.green_fifo.length + s.yellow_fifo.length
        + (if (channelOf p.1).isSome then 1 else 0) := by
  unfold pushColor channelOf
  split_ifs
  all_goals simp_all
  all_goals omega

/-- A command with an unrecognized color leaves every FIFO unchanged. -/
lemma pushColor_unrecognized (s : DispatchState) (p : Char × Int)
    (h : channelOf p.1 = none) : pushColor s p = s := by
  unfold channelOf at h
  unfold pushColor
  split_ifs at h ⊢
  all_goals simp_all

/-- Effect of the distribution loop from any starting state: the ledger
and the completion count both grow by the number of parsed commands, and
the FIFOs by the number of recognized commands. -/
lemma dispatch_foldl (cmds : List (Char × Int)) :
    ∀ s : DispatchState,
      (cmds.foldl submitCommand s).command_count = s.command_count + cmds.length ∧
      (cmds.foldl submitCommand s).command_queue
        = s.command_queue ++ cmds.map Prod.fst ∧
      (cmds.foldl submitCommand s).red_fifo.length
          + (cmds.foldl submitCommand s).green_fifo.length
          + (cmds.foldl submitCommand s).yellow_fifo.length
        = s.red_fifo.length + s.green_fifo.length + s.yellow_fifo.length
          + (cmds.filter (fun p => (channelOf p.1).isSome)).length := by
  induction cmds with
  | nil => intro s; simp
  | cons p rest ih =>
    intro s
    obtain ⟨ih1, ih2, ih3⟩ := ih (submitCommand s p)
    have hl := pushColor_ledger s p
    have hf := pushColor_fifos s p
    refine ⟨?_, ?_, ?_⟩
    · rw [List.foldl_cons, ih1]
      simp only [submitCommand, hl.2, List.length_cons]
      omega
    · rw [List.foldl_cons, ih2]
      simp only [submitCommand, hl.1, List.map_cons]
      simp
    · rw [List.foldl_cons, ih3]
      simp only [submitCommand]
      rw [List.filter_cons]
      by_cases hc : (channelOf p.1).isSome = true
      · rw [if_pos hc] at hf ⊢
        simp only [List.length_cons]
        omega
      · rw [if_neg hc] at hf ⊢
        omega

/-! ## Ring-buffer lemmas -/

/-- One stored symbol never pushes the occupancy beyond capacity. -/
lemma ring_buffer_put_char_le {rb : RingBuffer} (c : Char) :
    (ring_buffer_put_char rb c).count ≤ MAX_MSG_LEN := by
  simp only [ring_buffer_put_char]
  split_ifs with h1
  · exact Nat.le_refl _
  · dsimp only at h1 ⊢
    omega


/-- Storing a whole message never pushes the occupancy beyond
capacity. -/
lemma ring_buffer_put_le {rb : RingBuffer} (msg : List Char) (h : rb.count ≤ MAX_MSG_LEN) :
    (ring_buffer_put rb msg).count ≤ MAX_MSG_LEN := by
  induction msg generalizing rb with
  | nil => exact h
  | cons a tl ih =>
    simp only [ring_buffer_put, List.foldl_cons]
    exact ih (ring_buffer_put_char_le a)

/-- Storing into a full buffer keeps it full and advances the read
cursor: the oldest unread symbol is dropped. -/
lemma ring_buffer_put_char_overflow {rb : RingBuffer} (c : Char)
    (h : rb.count = MAX_MSG_LEN) :
    (ring_buffer_put_char rb c).count = MAX_MSG_LEN ∧
      (ring_buffer_put_char rb c).tail = (rb.tail + 1) % MAX_MSG_LEN := by
  simp only [ring_buffer_put_char]
  split_ifs with h1
  · exact ⟨rfl, rfl⟩
  · exfalso
    omega

/-- The read loop never increases the occupancy. -/
lemma ring_buffer_get_loop_count :
    ∀ (fuel : Nat) (rb : RingBuffer) (i : Nat) (acc : List Char),
      (ring_buffer_get_loop fuel rb i acc).1.count ≤ rb.count := by
  intro fuel
  induction fuel with
  | zero => intro rb i acc; exact Nat.le_refl _
  | succ f ih =>
    intro rb i acc
    rw [ring_buffer_get_loop]
    split_ifs with h1
    · refine le_trans (ih _ _ _) ?_
      show rb.count - 1 ≤ rb.count
      omega
    · exact Nat.le_refl _

/-- With enough fuel and occupancy below `MAX_MSG_LEN - 1`, the read
loop drains the buffer completely, emitting one output symbol per
occupied slot. -/
lemma ring_buffer_get_loop_drain :
    ∀ (fuel : Nat) (rb : RingBuffer) (i : Nat) (acc : List Char),
      rb.count ≤ fuel → rb.count + i ≤ MAX_MSG_LEN - 1 →
      (ring_buffer_get_loop fuel rb i acc).1.count = 0 ∧
      (ring_buffer_get_loop fuel rb i acc).2.length = acc.length + rb.count := by
  intro fuel
  induction fuel with
  | zero =>
    intro rb i acc h1 h2
    rw [ring_buffer_get_loop]
    refine ⟨?_, ?_⟩
    · show rb.count = 0
      omega
    · show acc.length = acc.length + rb.count
      omega
  | succ f ih =>
    intro rb i acc h1 h2
    rw [ring_buffer_get_loop]
    by_cases hc : 0 < rb.count ∧ i < MAX_MSG_LEN - 1
    · rw [if_pos hc]
      obtain ⟨hA, hB⟩ := ih
        { rb with tail := (rb.tail + 1) % MAX_MSG_LEN, count := rb.count - 1 }
        (i + 1) (acc ++ [rb.buffer.getD rb.tail (Char.ofNat 0)])
        (by show rb.count - 1 ≤ f; omega)
        (by show rb.count - 1 + (i + 1) ≤ MAX_MSG_LEN - 1; omega)
      refine ⟨hA, ?_⟩
      rw [hB]
      simp only [List.length_append, List.length_cons, List.length_nil]
      show acc.length + 1 + (rb.count - 1) = acc.length + rb.count
      omega
    · rw [if_neg hc]
      push_neg at hc
      rcases Nat.eq_zero_or_pos rb.count with h0 | h0
      · refine ⟨h0, ?_⟩
        show acc.length = acc.length + rb.count
        omega
      · exfalso
        have hi := hc h0
        omega

/-- A successful `ring_buffer_get` on a buffer holding at most
`MAX_MSG_LEN - 1` symbols drains it completely. -/
lemma ring_buffer_get_drain {rb : RingBuffer} (h1 : 0 < rb.count)
    (h2 : rb.count ≤ MAX_MSG_LEN - 1) :
    ring_buffer_get rb = some (ring_buffer_get_loop rb.count rb 0 []) ∧
    (ring_buffer_get_loop rb.count rb 0 []).1.count = 0 ∧
    (ring_buffer_get_loop rb.count rb 0 []).2.length = rb.count := by
  refine ⟨?_, ?_, ?_⟩
  · unfold ring_buffer_get
    rw [if_neg (by omega)]
  · exact (ring_buffer_get_loop_drain rb.count rb 0 [] (Nat.le_refl _) (by omega)).1
  · have := (ring_buffer_get_loop_drain rb.count rb 0 [] (Nat.le_refl _) (by omega)).2
    simpa using this

/-- Neither a store nor a read can push the occupancy beyond
capacity. -/
lemma applyOp_le {rb : RingBuffer} (op : RBOp) (h : rb.count ≤ MAX_MSG_LEN) :
    (applyOp rb op).count ≤ MAX_MSG_LEN := by
  cases op with
  | put msg => exact ring_buffer_put_le msg h
  | read =>
    unfold applyOp
    cases hg : ring_buffer_get rb with
    | none => exact h
    | some p =>
      obtain ⟨rb1, out⟩ := p
      unfold ring_buffer_get at hg
      split_ifs at hg with h0
      simp only [Option.some.injEq] at hg
      have hcnt := ring_buffer_get_loop_count rb.count rb 0 []
      rw [hg] at hcnt
      exact le_trans hcnt h

/-- The capacity invariant is preserved by any operation sequence. -/
lemma foldl_applyOp_le (ops : List RBOp) :
    ∀ rb : RingBuffer, rb.count ≤ MAX_MSG_LEN →
      (ops.foldl applyOp rb).count ≤ MAX_MSG_LEN := by
  induction ops with
  | nil => intro rb h; exact h
  | cons op rest ih =>
    intro rb h
    rw [List.foldl_cons]
    exact ih _ (applyOp_le op h)

/-! ## UART ingestion lemmas -/

/-- The per-byte check fails exactly on lowercase letters and the nine
listed special characters. -/
lemma char_assert_ok_eq_false_iff (c : Char) :
    char_assert_ok c = false ↔
      (('a' ≤ c ∧ c ≤ 'z') ∨ c ∈ ['.', '!', '@', '#', '$', '%', '^', '&', '*']) := by
  unfold char_assert_ok
  simp only [Bool.and_eq_false_iff, Bool.not_eq_false', Bool.and_eq_true,
    decide_eq_true_eq, bne_eq_false_iff_eq, List.mem_cons, List.not_mem_nil, or_false]
  constructor
  · intro h
    rcases h with h | h
    · exact Or.inl h
    · right
      tauto
  · intro h
    rcases h with h | h
    · exact Or.inl h
    · right
      tauto

/-- A byte halts the ingestion task exactly when the per-byte check
fails. -/
lemma uart_receive_byte_none_iff (s : UartState) (c : Char) :
    uart_receive_byte s c = none ↔ char_assert_ok c = false := by
  cases hc : char_assert_ok c with
  | true =>
    have hred : uart_receive_byte s c =
        if c = '\n' ∨ c = '\r' ∨ MAX_MSG_LEN ≤ (s.uart_msg ++ [c]).length then
          some (handle_message { s with uart_msg := [] } (s.uart_msg ++ [c]).dropLast)
        else some { s with uart_msg := s.uart_msg ++ [c] } := by
      unfold uart_receive_byte
      rw [if_pos hc]
    rw [hred]
    constructor
    · intro h
      by_cases hcond : c = '\n' ∨ c = '\r' ∨ MAX_MSG_LEN ≤ (s.uart_msg ++ [c]).length
      · rw [if_pos hcond] at h
        exact Option.noConfusion h
      · rw [if_neg hcond] at h
        exact Option.noConfusion h
    · intro h
      exact Bool.noConfusion h
  | false =>
    unfold uart_receive_byte
    rw [if_neg (by rw [hc]; exact Bool.false_ne_true)]
    simp

/-- Feeding the line `D,1` from an idle accumulator enables debugging
and touches nothing else: not the ring buffer, not the accumulator. -/
lemma feed_D1 (s : UartState) (h : s.uart_msg = []) :
    feed s ['D', ',', '1', '\n'] = some { s with debug_enabled := true } := by
  obtain ⟨m, d, b⟩ := s
  dsimp only at h
  subst h
  rfl

/-- Feeding the line `D,0` from an idle accumulator disables debugging
and touches nothing else. -/
lemma feed_D0 (s : UartState) (h : s.uart_msg = []) :
    feed s ['D', ',', '0', '\n'] = some { s with debug_enabled := false } := by
  obtain ⟨m, d, b⟩ := s
  dsimp only at h
  subst h
  rfl

/-! ## Claim theorems -/

/-- C1 (counterexample): for the message `X,5` the dispatcher appends
one entry to the `command_queue` turn ledger (and waits for one
completion signal) yet distributes zero commands to the three LED
FIFOs, so the claimed equality between ledger entries and distributed
commands fails. -/
theorem C1_counterexample :
    parseMessage (String.toList "X,5") = some [('X', 5)] ∧
    (dispatchAll [('X', 5)]).command_queue.length = 1 ∧
    (dispatchAll [('X', 5)]).red_fifo.length + (dispatchAll [('X', 5)]).green_fifo.length
      + (dispatchAll [('X', 5)]).yellow_fifo.length = 0 ∧
    completions_waited [('X', 5)] = 1 := by decide

/-- C1 (amended): for every submitted message, the number of turn-ledger
entries equals the number of parsed commands, and the Sequence
Coordinator waits for exactly that many completion signals; the number
of commands distributed to the ChannelQueues equals the ledger count
only when every parsed channel character is recognized. -/
theorem C1_ledger_count (cmds : List (Char × Int)) :
    (dispatchAll cmds).command_queue.length = cmds.length ∧
    completions_waited cmds = (dispatchAll cmds).command_queue.length ∧
    ((∀ p ∈ cmds, (channelOf p.1).isSome = true) →
      (dispatchAll cmds).red_fifo.length + (dispatchAll cmds).green_fifo.length
          + (dispatchAll cmds).yellow_fifo.length
        = (dispatchAll cmds).command_queue.length) := by
  obtain ⟨h1, h2, h3⟩ := dispatch_foldl cmds dispatch_init
  have hq : (dispatchAll cmds).command_queue.length = cmds.length := by
    unfold dispatchAll
    rw [h2]
    simp [dispatch_init]
  refine ⟨hq, ?_, ?_⟩
  · unfold completions_waited
    rw [hq]
    unfold dispatchAll
    rw [h1]
    simp [dispatch_init]
  · intro hall
    have hfilter : (cmds.filter (fun p => (channelOf p.1).isSome)).length = cmds.length := by
      rw [List.filter_eq_self.mpr hall]
    rw [hq]
    unfold dispatchAll
    rw [h3, hfilter]
    simp [dispatch_init]

/-- C1 witness: the amended claim evaluated on the single recognized
command `R,5`. -/
theorem C1_ledger_count_witness :
    (dispatchAll [('R', 5)]).red_fifo.length + (dispatchAll [('R', 5)]).green_fifo.length
        + (dispatchAll [('R', 5)]).yellow_fifo.length
      = (dispatchAll [('R', 5)]).command_queue.length :=
  (C1_ledger_count [('R', 5)]).2.2 (by decide)

/-- C2: a parsed entry whose channel character is unrecognized is
dropped by the `switch` before entering any LED FIFO, yet its character
is still appended to the `command_queue` turn ledger and counted. -/
theorem C2_unrecognized_dropped (s : DispatchState) (c : Char) (d : Int)
    (h : channelOf c = none) :
    submitCommand s (c, d)
      = { s with
          command_queue := s.command_queue ++ [c]
          command_count := s.command_count + 1 } := by
  have hp : pushColor s (c, d) = s := pushColor_unrecognized s (c, d) h
  unfold submitCommand
  rw [hp]

/-- C2 witness: the unrecognized command `X,7` submitted to the empty
state. -/
theorem C2_unrecognized_dropped_witness :
    submitCommand dispatch_init ('X', 7) = ⟨[], [], [], ['X'], 1⟩ :=
  C2_unrecognized_dropped dispatch_init 'X' 7 rfl

/-- C3: parsing `R,100,G,200T,2` yields the commands
`[R:100, G:200, R:100, G:200]` in repeat-major order; distributing them
appends `[R, G, R, G]` to the turn ledger and the durations to the red
and green FIFOs in that order. -/
theorem C3_roundtrip :
    parseMessage (String.toList "R,100,G,200T,2")
      = some [('R', 100), ('G', 200), ('R', 100), ('G', 200)] ∧
    (dispatchAll [('R', 100), ('G', 200), ('R', 100), ('G', 200)]).command_queue
      = ['R', 'G', 'R', 'G'] ∧
    (dispatchAll [('R', 100), ('G', 200), ('R', 100), ('G', 200)]).red_fifo
      = [100, 100] ∧
    (dispatchAll [('R', 100), ('G', 200), ('R', 100), ('G', 200)]).green_fifo
      = [200, 200] ∧
    (dispatchAll [('R', 100), ('G', 200), ('R', 100), ('G', 200)]).yellow_fifo = [] := by
  decide

/-- C4: with a `T` marker, repeat 100 is accepted while 0, 101 and any
other out-of-range value trip the assert (fatal, modelled as `none`),
and an unparsable repeat field falls back to 1 (the body is expanded
once). -/
theorem C4_repeat_validation :
    parseMessage (String.toList "R,10T,100") ≠ none ∧
    parseMessage (String.toList "R,10T,0") = none ∧
    parseMessage (String.toList "R,10T,101") = none ∧
    (∀ (msg : List Char) (i : Nat) (v : Int),
      msg.findIdx? (fun c => c == 'T') = some i →
      scanRepeat (msg.drop i) = some v → v < 1 ∨ 100 < v →
      parseMessage msg = none) ∧
    (∀ (msg : List Char) (i : Nat),
      msg.findIdx? (fun c => c == 'T') = some i →
      scanRepeat (msg.drop i) = none →
      parseMessage msg = some (parsePass (msg.take i))) := by
  refine ⟨by decide, by decide, by decide, ?_, ?_⟩
  · intro msg i v hT hrep hout
    exact parseMessage_T_out_of_range hT hrep hout
  · intro msg i hT hrep
    exact parseMessage_T_unparsable hT hrep

/-- C4 witness: repeat 200 is rejected as fatal; the unparsable repeat
field `T,?` falls back to a single pass over the body `R,10`. -/
theorem C4_repeat_validation_witness :
    parseMessage (String.toList "R,10T,200") = none ∧
    parseMessage (String.toList "R,10T,?") = some (parsePass (String.toList "R,10")) := by
  constructor
  · exact C4_repeat_validation.2.2.2.1 (String.toList "R,10T,200") 4 200
      (by decide) (by decide) (by decide)
  · exact C4_repeat_validation.2.2.2.2 (String.toList "R,10T,?") 4
      (by decide) (by decide)

/-- C5 (counterexample): after the two one-symbol messages `A` and `B`
have been pushed, a single `ring_buffer_get` returns both symbols at
once, and a second read finds the buffer empty — the read does not stop
after the first message. -/
theorem C5_counterexample :
    (ring_buffer_get rbAB).map (fun p => p.2) = some ['A', 'B'] ∧
    (ring_buffer_get rbAB).bind (fun p => ring_buffer_get p.1) = none := by decide

/-- C5 (amended): a single successful `ring_buffer_get` drains every
unread symbol (the occupancy is below `MAX_MSG_LEN - 1`): it returns one
output symbol per occupied slot and leaves the buffer empty, regardless
of how many pushed messages those symbols came from. -/
theorem C5_drains_all (rb : RingBuffer) (h1 : 0 < rb.count)
    (h2 : rb.count ≤ MAX_MSG_LEN - 1) :
    ring_buffer_get rb = some (ring_buffer_get_loop rb.count rb 0 []) ∧
    (ring_buffer_get_loop rb.count rb 0 []).1.count = 0 ∧
    (ring_buffer_get_loop rb.count rb 0 []).2.length = rb.count :=
  ring_buffer_get_drain h1 h2

/-- C5 witness: the amended claim evaluated on the buffer holding the
two pushed messages. -/
theorem C5_drains_all_witness :
    (ring_buffer_get_loop rbAB.count rbAB 0 []).1.count = 0 ∧
    (ring_buffer_get_loop rbAB.count rbAB 0 []).2.length = rbAB.count :=
  (C5_drains_all rbAB (by decide) (by decide)).2

/-- C6: a malformed entry aborts only the current repeat pass — the
commands already parsed in that pass stand and everything from the
malformed entry on is skipped — and no error is raised: on
`R,100,ZZT,2` every pass still re-parses `R,100` before breaking at
`ZZ`, and the caller receives `[R:100, R:100]`. -/
theorem C6_partial_pass (entries : List (Char × List Char)) (bad : List Char)
    (hg : goodEntries entries) (hbad : scanEntry bad = none)
    (hhead : ∀ x, bad.head? = some x → x ≠ ',' ∧ x ≠ ' ') :
    parsePass (renderB entries bad)
      = entries.map (fun p => (p.1, (digitsToNat p.2 : Int))) ∧
    parseMessage (String.toList "R,100,ZZT,2") = some [('R', 100), ('R', 100)] := by
  refine ⟨?_, by decide⟩
  rw [parsePass_renderB entries bad hg hhead, parsePass_eq_nil hbad, List.append_nil]

/-- C6 witness: the body `R,1,ZZ` parses to the single command before
the malformed tail. -/
theorem C6_partial_pass_witness :
    parsePass (renderB [('R', ['1'])] ['Z', 'Z']) = [('R', 1)] :=
  (C6_partial_pass [('R', ['1'])] ['Z', 'Z'] (by decide) (by decide)
    (fun x hx => by
      simp only [List.head?_cons, Option.some.injEq] at hx
      subst hx
      exact ⟨by decide, by decide⟩)).1

/-- C7: a message without a `T` marker uses repeat 1 — the body is
parsed exactly once — and a rendered well-formed body parses to its
entries in left-to-right order of appearance. -/
theorem C7_no_T_single_pass (msg : List Char) (entries : List (Char × List Char))
    (hmsg : 'T' ∉ msg) (hg : goodEntries entries) :
    parseMessage msg = some (parsePass msg) ∧
    parseMessage (renderB entries [])
      = some (entries.map (fun p => (p.1, (digitsToNat p.2 : Int)))) := by
  refine ⟨parseMessage_no_T hmsg, ?_⟩
  rw [parseMessage_no_T (T_not_mem_renderB entries hg)]
  rw [parsePass_renderB entries [] hg (fun x hx => by cases hx)]
  rw [parsePass_eq_nil (show scanEntry [] = none from rfl)]
  simp

/-- C7 witness: the `T`-free rendered body `R,100,G,200,` parses to its
two commands in order, once. -/
theorem C7_no_T_single_pass_witness :
    parseMessage (renderB [('R', ['1', '0', '0']), ('G', ['2', '0', '0'])] [])
      = some [('R', 100), ('G', 200)] :=
  (C7_no_T_single_pass ['Y'] [('R', ['1', '0', '0']), ('G', ['2', '0', '0'])]
    (by decide) (by decide)).2

/-- C8: under any sequence of put and read operations the occupancy
never exceeds `MAX_MSG_LEN`, and a put into a full buffer keeps it full
while advancing the tail past the oldest unread symbol. -/
theorem C8_capacity_invariant (ops : List RBOp) (rb : RingBuffer)
    (h : rb.count ≤ MAX_MSG_LEN) :
    (ops.foldl applyOp rb).count ≤ MAX_MSG_LEN ∧
    (∀ c : Char, rb.count = MAX_MSG_LEN →
      (ring_buffer_put_char rb c).count = MAX_MSG_LEN ∧
      (ring_buffer_put_char rb c).tail = (rb.tail + 1) % MAX_MSG_LEN) :=
  ⟨foldl_applyOp_le ops rb h, fun c hfull => ring_buffer_put_char_overflow c hfull⟩

/-- C8 witness: a put-then-read sequence from the empty buffer, and one
symbol stored into a full buffer. -/
theorem C8_capacity_invariant_witness :
    ([RBOp.put ['A'], RBOp.read].foldl applyOp rb_init).count ≤ MAX_MSG_LEN ∧
    (ring_buffer_put_char rbFull 'Q').count = MAX_MSG_LEN ∧
    (ring_buffer_put_char rbFull 'Q').tail = (rbFull.tail + 1) % MAX_MSG_LEN :=
  ⟨(C8_capacity_invariant [RBOp.put ['A'], RBOp.read] rb_init (by decide)).1,
   (C8_capacity_invariant [] rbFull (by decide)).2 'Q' rfl⟩

/-- C9: `D,1` sets (not toggles) the debug flag, so feeding it twice
leaves debugging enabled, and `D` control messages are consumed by the
ingestion task — the ring buffer is left untouched and they never reach
the dispatcher. -/
theorem C9_debug_idempotent (s : UartState) (h : s.uart_msg = []) :
    feed s ['D', ',', '1', '\n'] = some { s with debug_enabled := true } ∧
    (feed s ['D', ',', '1', '\n']).bind (fun s1 => feed s1 ['D', ',', '1', '\n'])
      = some { s with debug_enabled := true } ∧
    (feed s ['D', ',', '1', '\n']).map (fun s1 => s1.uart_buffer) = some s.uart_buffer ∧
    feed s ['D', ',', '0', '\n'] = some { s with debug_enabled := false } ∧
    (feed s ['D', ',', '0', '\n']).map (fun s1 => s1.uart_buffer) = some s.uart_buffer := by
  have h1 := feed_D1 s h
  have h0 := feed_D0 s h
  refine ⟨h1, ?_, ?_, h0, ?_⟩
  · rw [h1]
    exact feed_D1 { s with debug_enabled := true } h
  · rw [h1]
    rfl
  · rw [h0]
    rfl

/-- C9 witness: the boot state fed `D,1` twice. -/
theorem C9_debug_idempotent_witness :
    (feed uart_init ['D', ',', '1', '\n']).bind
        (fun s1 => feed s1 ['D', ',', '1', '\n'])
      = some { uart_init with debug_enabled := true } :=
  (C9_debug_idempotent uart_init rfl).2.1

/-- C10: a received byte halts the ingestion task via a failed assert
exactly when it is a lowercase letter or one of
`. ! @ # $ % ^ & *`; every other byte passes the check and is
processed. -/
theorem C10_assert_charset (s : UartState) (c : Char) :
    uart_receive_byte s c = none ↔
      (('a' ≤ c ∧ c ≤ 'z') ∨ c ∈ ['.', '!', '@', '#', '$', '%', '^', '&', '*']) := by
  rw [uart_receive_byte_none_iff, char_assert_ok_eq_false_iff]

/-- C10 witness: the lowercase byte `a` halts the boot-state ingestion
task, the valid byte `R` does not. -/
theorem C10_assert_charset_witness :
    uart_receive_byte uart_init 'a' = none ∧
      ¬ uart_receive_byte uart_init 'R' = none :=
  ⟨(C10_assert_charset uart_init 'a').mpr (Or.inl (by decide)),
   fun hn => absurd ((C10_assert_charset uart_init 'R').mp hn) (by decide)⟩

end TrafficSignals
